import Mathlib

/-!
Verification of the octokit-sandbox command-line reporting utilities.

Each command of the repository is a fetch-accumulate-format-write pipeline
over a remote REST/GraphQL API.  We embed the commands shallowly: the remote
API is modelled by explicit response values (lists of pages, or
`Except`-valued oracles for calls that may throw), file writes become lists
of accumulated CSV rows, and logger calls become structured log events.
External library functions that only render values for humans (the
`filesize` formatter) are taken as parameters.
-/

namespace PackageDetails

/-! Embedding of `src/commands/get-package-details.ts` (the multi-organization
version, which is the one wired into the CLI).  GraphQL floats do not occur;
byte sizes and counts are natural numbers. -/

/-- A file of a package version (`PackageFile` in the source). -/
structure PackageFile where
  name : String
  size : Nat
  updatedAt : String
  deriving DecidableEq

/-- The `latestVersion` payload (`PackageVersion` in the source); `files` is
the `files.nodes` list. -/
structure PackageVersionInfo where
  files : List PackageFile
  version : String
  deriving DecidableEq

/-- The nested `repository` object of a package. -/
structure PkgRepository where
  name : String
  isArchived : Bool
  visibility : String
  deriving DecidableEq

/-- A node of the packages connection (`PackageDetail` in the source).
`statistics` is nullable in the code (`pkg.statistics ? ... : 0`), hence an
`Option` carrying `downloadsTotalCount`; `versionsTotalCount` is
`versions.totalCount`. -/
structure PackageDetail where
  name : String
  packageType : String
  repository : Option PkgRepository
  statistics : Option Nat
  latestVersion : Option PackageVersionInfo
  versionsTotalCount : Nat
  deriving DecidableEq

/-- GraphQL `pageInfo` of a connection. -/
structure PageInfo where
  hasNextPage : Bool
  endCursor : Option String
  deriving DecidableEq

/-- One response of the `PACKAGE_DETAILS_QUERY`: the packages of the page and
the page info (`response.organization.packages`). -/
structure PackagesPage where
  nodes : List PackageDetail
  pageInfo : PageInfo
  deriving DecidableEq

/-- Embedding of the `getOrgPackageDetails` pagination loop.  The remote
server is modelled by the list of responses it serves to the successive
requests; the loop starts with `cursor` (the `endCursor` parameter, `null` by
default), issues one request per iteration, yields all nodes of the page,
and continues with the `endCursor` of the page while `hasNextPage` is true.
The result is `none` when the loop would issue a request for which no
response is provided; otherwise it returns the yielded nodes in order
together with the list of cursors passed to the successive requests. -/
def getOrgPackageDetails (cursor : Option String) :
    List PackagesPage → Option (List PackageDetail × List (Option String))
  | [] => none
  | p :: rest =>
    if p.pageInfo.hasNextPage then
      match getOrgPackageDetails p.pageInfo.endCursor rest with
      | none => none
      | some (nodes, cursors) => some (p.nodes ++ nodes, cursor :: cursors)
    else
      some (p.nodes, [cursor])

/-- Totals returned by `getPackageVersionDetails` for one package. -/
structure VersionTotals where
  totalFiles : Nat
  totalSize : Nat
  totalVersions : Nat
  deriving DecidableEq

/-- Embedding of `packageToCSVRow`.  `fsize` is the external `filesize`
formatter, taken as a parameter. -/
def packageToCSVRow (fsize : Nat → String) (pkg : PackageDetail)
    (totalFiles totalSize totalVersions : Nat) : String :=
  let repoName := match pkg.repository with | some r => r.name | none => "N/A"
  let isArchived := match pkg.repository with | some r => r.isArchived | none => false
  let visibility := match pkg.repository with | some r => r.visibility | none => "N/A"
  let downloads := match pkg.statistics with | some d => d | none => 0
  let version := match pkg.latestVersion with | some v => v.version | none => "N/A"
  let updatedAt := match pkg.latestVersion with
    | some v => match v.files.head? with | some f => f.updatedAt | none => "N/A"
    | none => "N/A"
  let latestVersionSize := match pkg.latestVersion with
    | some v =>
      if v.files.length > 0 then (v.files.map (fun f => f.size)).sum else 0
    | none => 0
  String.intercalate "," [pkg.name, pkg.packageType, repoName,
    toString isArchived, visibility, toString downloads, updatedAt, version,
    toString latestVersionSize, fsize latestVersionSize,
    toString totalVersions, toString totalFiles, toString totalSize,
    fsize totalSize]

/-- The skip test of the per-organization loop: the package name starts
with `deleted_` and `versions.totalCount` is zero.  The JS `startsWith` is
embedded as the corresponding test on the character lists of the two
strings. -/
def isDeletedPackage (pkg : PackageDetail) : Bool :=
  "deleted_".data.isPrefixOf pkg.name.data && pkg.versionsTotalCount == 0

/-- Accumulated state of the per-organization loop of
`getPackageDetailsCommand`: the CSV rows appended to the per-organization
file and the three counters. -/
structure OrgAcc where
  rows : List String
  packageCount : Nat
  skippedCount : Nat
  totalSizeBytes : Nat
  deriving DecidableEq

/-- One yielded package together with the outcome of the
`getPackageVersionDetails` call made for it (`Except.error` models a thrown
API error: the call site has no try/catch). -/
abbrev OrgItem := PackageDetail × Except String VersionTotals

/-- Embedding of the per-organization `for await` loop of
`getPackageDetailsCommand`: deleted packages are skipped; otherwise the
version details are fetched (an exception aborts the loop, returning the
accumulator reached so far — the rows already appended to the file — and
the error); on success one CSV row is appended and the counters updated. -/
def orgLoop (fsize : Nat → String) : List OrgItem → OrgAcc → OrgAcc × Option String
  | [], acc => (acc, none)
  | (pkg, versionDetails) :: rest, acc =>
    if isDeletedPackage pkg then
      orgLoop fsize rest { acc with skippedCount := acc.skippedCount + 1 }
    else
      match versionDetails with
      | .error e => (acc, some e)
      | .ok t =>
        orgLoop fsize rest
          { rows := acc.rows ++
              [packageToCSVRow fsize pkg t.totalFiles t.totalSize t.totalVersions],
            packageCount := acc.packageCount + 1,
            skippedCount := acc.skippedCount,
            totalSizeBytes := acc.totalSizeBytes + t.totalSize }

/-- The per-organization run, starting from the freshly created CSV file
(headers only, zero counters). -/
def orgRun (fsize : Nat → String) (items : List OrgItem) : OrgAcc × Option String :=
  orgLoop fsize items ⟨[], 0, 0, 0⟩

/-- Embedding of the outer loop over the comma-separated organizations:
after a completed organization the per-organization counters are added to
`totalPackageCount`, `totalSkippedCount` and `grandTotalSizeBytes`; an
uncaught exception aborts the whole command, leaving the totals at the
value reached before the failing organization. -/
def commandRun (fsize : Nat → String) :
    List (List OrgItem) → Nat × Nat × Nat → (Nat × Nat × Nat) × Option String
  | [], totals => (totals, none)
  | org :: rest, totals =>
    match orgRun fsize org with
    | (_, some e) => (totals, some e)
    | (acc, none) =>
      commandRun fsize rest
        (totals.1 + acc.packageCount, totals.2.1 + acc.skippedCount,
          totals.2.2 + acc.totalSizeBytes)

/-- The items of an organization run that are processed (not skipped as
deleted) and whose version-details fetch succeeded; a completed run writes
exactly one CSV row per such item. -/
def processedItems (items : List OrgItem) : List OrgItem :=
  items.filter (fun it => !isDeletedPackage it.1)

/-- The `totalSize` values fetched for the processed packages of one
organization. -/
def processedSizes (items : List OrgItem) : List Nat :=
  items.filterMap (fun it =>
    if isDeletedPackage it.1 then none
    else match it.2 with | .ok t => some t.totalSize | .error _ => none)

end PackageDetails

namespace Codespaces

/-! Embedding of `src/commands/codespaces-usage.ts`.  The REST responses are
converted to the local `Codespace` interface; the nested one-field objects
(`{login}`, `{name}`) are flattened to the string they carry, and the
machine sizes (floats obtained by dividing byte counts by 2^30, used only
through `toString`) are carried as naturals — no claim depends on the
rendered digits. -/

/-- The converted `machine` record of a codespace. -/
structure CodespaceMachine where
  name : String
  displayName : String
  cpuSize : Nat
  memorySize : Nat
  storage : Nat
  deriving DecidableEq

/-- The converted `Codespace` interface: `billableOwner`, `owner` and
`repository` hold the login/name of the nested object when present. -/
structure Codespace where
  name : String
  state : String
  machine : Option CodespaceMachine
  billableOwner : Option String
  owner : Option String
  repository : Option String
  lastUsedAt : Option String
  createdAt : String
  deriving DecidableEq

/-- The `codespaces` connection of a grouped repository. -/
structure CodespacesConnection where
  totalCount : Nat
  nodes : List Codespace
  deriving DecidableEq

/-- A repository as yielded by `getCodespaceUsage`. -/
structure Repository where
  name : String
  codespaces : CodespacesConnection
  deriving DecidableEq

/-- The grouping key: the repository name of the codespace, defaulting to `Unknown`. -/
def repoKey (c : Codespace) : String :=
  c.repository.getD "Unknown"

/-- Insertion into the `repositoryMap` of a page: a JS `Map` keeps keys in
insertion order and `push` appends to the existing group. -/
def insertGroup (k : String) (c : Codespace) :
    List (String × List Codespace) → List (String × List Codespace)
  | [] => [(k, [c])]
  | (k₀, cs) :: rest =>
    if k₀ = k then (k₀, cs ++ [c]) :: rest
    else (k₀, cs) :: insertGroup k c rest

/-- Grouping of one page of codespaces by repository name, in encounter
order (the `repositoryMap` loop of `getCodespaceUsage`). -/
def groupByRepo (cs : List Codespace) : List (String × List Codespace) :=
  cs.foldl (fun m c => insertGroup (repoKey c) c m) []

/-- Conversion of the groups of one page to `Repository` objects
(`totalCount: codespaces.length`). -/
def pageRepositories (page : List Codespace) : List Repository :=
  (groupByRepo page).map (fun g => ⟨g.1, ⟨g.2.length, g.2⟩⟩)

/-- Embedding of the `getCodespaceUsage` generator: each page of codespaces
fetched from `GET /orgs/{org}/codespaces` is grouped by repository and the
resulting repositories are yielded in order.  `pages` are the successfully
fetched pages (an API error stops the generator after the pages already
served). -/
def getCodespaceUsage (pages : List (List Codespace)) : List Repository :=
  (pages.map pageRepositories).flatten

/-- Embedding of `repositoryToCSVRow`: one placeholder row when the
repository has no codespaces, otherwise one row per codespace. -/
def repositoryToCSVRow (repo : Repository) : List String :=
  if repo.codespaces.totalCount == 0 then
    [String.intercalate "," [repo.name, "N/A", "N/A", "N/A", "N/A", "N/A",
      "N/A", "N/A", "N/A", "N/A", "N/A"]]
  else
    repo.codespaces.nodes.map (fun c =>
      let machineName := match c.machine with | some m => m.name | none => "N/A"
      let cpuSize := match c.machine with | some m => toString m.cpuSize | none => "N/A"
      let memorySize := match c.machine with | some m => toString m.memorySize | none => "N/A"
      let storage := match c.machine with | some m => toString m.storage | none => "N/A"
      let billableOwner := c.billableOwner.getD "N/A"
      let owner := c.owner.getD "N/A"
      String.intercalate "," [repo.name, c.name, c.state, machineName,
        cpuSize, memorySize, storage, billableOwner, owner,
        c.lastUsedAt.getD "N/A", c.createdAt])

/-- Accumulated state of the per-organization loop of
`codespacesUsageCommand`: the rows appended to the per-organization CSV file
and the three counters. -/
structure CodespacesAcc where
  rows : List String
  repositoryCount : Nat
  totalCodespaces : Nat
  repositoriesWithCodespaces : Nat
  deriving DecidableEq

/-- One iteration of the per-organization `for await` loop of
`codespacesUsageCommand`: append the rows of the repository to the CSV file
and update the three counters. -/
def codespacesStep (acc : CodespacesAcc) (repo : Repository) : CodespacesAcc :=
  { rows := acc.rows ++ repositoryToCSVRow repo,
    repositoryCount := acc.repositoryCount + 1,
    totalCodespaces := acc.totalCodespaces + repo.codespaces.totalCount,
    repositoriesWithCodespaces := acc.repositoriesWithCodespaces +
      (if repo.codespaces.totalCount > 0 then 1 else 0) }

/-- Embedding of the per-organization `for await` loop of
`codespacesUsageCommand` over the repositories yielded by
`getCodespaceUsage`. -/
def codespacesOrgRun (pages : List (List Codespace)) : CodespacesAcc :=
  (getCodespaceUsage pages).foldl codespacesStep ⟨[], 0, 0, 0⟩

end Codespaces

namespace ReleaseSizes

/-! Embedding of `src/commands/get-repo-release-sizes.ts` together with the
`readRepositoryNames` utility it calls to obtain its item list. -/

/-- A release as far as the command reads it: its list of asset sizes
(`release.assets`, each asset contributing `asset.size`). -/
structure Release where
  assetSizes : List Nat
  deriving DecidableEq

/-- The size record of one repository (`RepoSizeInfo` in the source). -/
structure RepoSizeInfo where
  name : String
  sizeInBytes : Nat
  exceedsThreshold : Bool
  deriving DecidableEq

/-- Log events emitted by the command, one constructor per `logger` call
site (messages are structured rather than rendered to strings). -/
inductive LogEvent where
  | starting
  | errorReadingList
  | noReposToProcess
  | foundRepos (n : Nat)
  | processingRepo (name : String)
  | pageAssets (name : String) (bytes : Nat)
  | repoTotalWarn (name : String) (bytes : Nat)
  | repoTotalInfo (name : String) (bytes : Nat)
  | summaryHeader
  | tableColumns
  | tableSep
  | tableRow (name : String) (bytes : Nat) (exceeds : Bool)
  | totalSizeAll (bytes : Nat)
  | exceedWarning (n : Nat)
  | finished
  deriving DecidableEq

/-- Embedding of `readRepositoryNames` (utility module).  `parseResult`
models the outcome of `readFileSync` + `csv-parse`: `Except.error` when
either throws, otherwise the parsed records.  The function extracts the
first column of each record, treats an empty extraction as an error (the
`throw` inside the `try` is caught by its own `catch`), and returns the
emitted log events together with the repository names (empty on error). -/
def readRepositoryNames (parseResult : Except String (List (List String))) :
    List LogEvent × List String :=
  match parseResult with
  | .error _ => ([.errorReadingList, .noReposToProcess], [])
  | .ok records =>
    let repoNames := records.map (fun record => record.headD "")
    if repoNames.length = 0 then
      ([.errorReadingList, .noReposToProcess], [])
    else
      ([.foundRepos repoNames.length], repoNames)

/-- Total asset size of one repository: the pages of releases are folded,
each page contributing the sum of the sizes of the assets of its releases
(`releases.flatMap(assets)` then `reduce`). -/
def repoReleaseSize (pages : List (List Release)) : Nat :=
  pages.foldl
    (fun total page =>
      total + ((page.map (fun r => r.assetSizes)).flatten.foldl (· + ·) 0))
    0

/-- The per-repository loop: builds the `repoSizes` records in input order
and emits the per-repository log events.  `releases` maps a repository name
to the pages of releases the API serves for it. -/
def buildRepoSizes (threshold : Nat) (releases : String → List (List Release))
    (repoNames : List String) : List LogEvent × List RepoSizeInfo :=
  repoNames.foldl
    (fun (acc : List LogEvent × List RepoSizeInfo) repoName =>
      let size := repoReleaseSize (releases repoName)
      let record : RepoSizeInfo := ⟨repoName, size, threshold ≤ size⟩
      let pageEvents := (releases repoName).map
        (fun page => LogEvent.pageAssets repoName
          ((page.map (fun r => r.assetSizes)).flatten.foldl (· + ·) 0))
      (acc.1 ++ [LogEvent.processingRepo repoName] ++ pageEvents ++
        [if threshold ≤ size then LogEvent.repoTotalWarn repoName size
         else LogEvent.repoTotalInfo repoName size],
       acc.2 ++ [record]))
    ([], [])

/-- The sort of the summary table:
`repoSizes.sort((a, b) => b.sizeInBytes - a.sizeInBytes)` — a stable sort
by descending `sizeInBytes`. -/
def sortRepoSizes (repoSizes : List RepoSizeInfo) : List RepoSizeInfo :=
  repoSizes.mergeSort (fun a b => b.sizeInBytes ≤ a.sizeInBytes)

/-- Embedding of the whole `getRepoReleaseSizesCommand` action: read the
repository list, process each repository, sort, print the summary table,
the total and the threshold warning.  Returns the emitted log events, the
sorted records and the reported total. -/
def getRepoReleaseSizesRun (parseResult : Except String (List (List String)))
    (threshold : Nat) (releases : String → List (List Release)) :
    List LogEvent × List RepoSizeInfo × Nat :=
  let read := readRepositoryNames parseResult
  let build := buildRepoSizes threshold releases read.2
  let sorted := sortRepoSizes build.2
  let totalSizeInBytes := sorted.foldl (fun total repo => total + repo.sizeInBytes) 0
  let reposExceedingThreshold := (sorted.filter (fun r => r.exceedsThreshold)).length
  ([LogEvent.starting] ++ read.1 ++ build.1 ++
    [LogEvent.summaryHeader, LogEvent.tableColumns, LogEvent.tableSep] ++
    sorted.map (fun r => LogEvent.tableRow r.name r.sizeInBytes r.exceedsThreshold) ++
    [LogEvent.totalSizeAll totalSizeInBytes] ++
    (if reposExceedingThreshold > 0 then [LogEvent.exceedWarning reposExceedingThreshold] else []) ++
    [LogEvent.finished],
   sorted, totalSizeInBytes)

end ReleaseSizes

namespace Teams

/-! Embedding of the `getTeamMembers` utility (teams module): a cached
lookup of team members keyed by team slug.  The JS `Map` is modelled as an
association list in insertion order; `fetch` models the
`octokit.paginate(listMembersInOrg)` call, already mapped to logins.  The
returned `Nat` counts the API fetches the call performed. -/

/-- Embedding of `getTeamMembers`: return the cached members when the slug
is a key of the map, otherwise fetch them, store them under the slug and
return them. -/
def getTeamMembers (fetch : String → List String) (teamSlug : String)
    (teamMap : List (String × List String)) :
    List String × List (String × List String) × Nat :=
  match teamMap.lookup teamSlug with
  | some members => (members, teamMap, 0)
  | none =>
    let members := fetch teamSlug
    (members, teamMap ++ [(teamSlug, members)], 1)

end Teams

namespace FindPackages

/-! Embedding of `src/commands/find-packages.ts`.  Each package of the
paginated organization package list is processed inside a `try`/`catch`:
the versions pagination may throw (reaching the outer catch, which logs and
continues with the next package), while the repository lookup and the
download statistics have their own inner catches that fall back to default
values.  Timestamps (`created_at`, compared through `Date.getTime`) are
modelled as naturals. -/

/-- A package version as read by the command: creation time, optional size
(`version.size || 0`) and the optional container tags
(`metadata?.container?.tags`). -/
structure VersionRec where
  createdAt : Nat
  size : Option Nat
  tags : Option (List String)
  deriving DecidableEq

/-- A package of the organization list together with the outcomes of the
three per-package API interactions: the versions pagination, the
`repos.get` lookup and the statistics request. -/
structure PkgItem where
  name : String
  packageType : String
  repository : Option String
  versionsRes : Except String (List VersionRec)
  repoRes : Except String Bool
  statsRes : Except String (Nat × Option String)

/-- The API requests the processing of one package can issue. -/
inductive Request where
  | versionsReq (packageName : String)
  | repoReq (repoName : String)
  | statsReq (packageName : String)
  deriving DecidableEq

/-- The record pushed onto `packageDetails` for one processed package. -/
structure ItemDetail where
  name : String
  type : String
  repository : String
  repositoryArchived : Bool
  latestVersionSize : Nat
  allVersionsSize : Nat
  totalDownloads : Nat
  lastPublishDate : Option Nat
  lastDownloadDate : Option String
  versionCount : Nat
  deriving DecidableEq

/-- Per-package processing: the requests issued (in order) and the detail
record pushed, or `none` when the versions pagination threw and the outer
catch logged the error and skipped the package.  The versions are sorted by
descending `created_at`; `latestVersionSize` keeps the size of the last
version in that order whose tags contain `latest` (each matching iteration
overwrites the variable); the repository lookup is only made when the
package has a repository name, and its failure (like a statistics failure)
is absorbed by an inner catch with a default value. -/
def processPackage (it : PkgItem) : List Request × Option ItemDetail :=
  let repositoryName := it.repository.getD "N/A"
  match it.versionsRes with
  | .error _ => ([Request.versionsReq it.name], none)
  | .ok vs =>
    let versions := vs.mergeSort (fun a b => b.createdAt ≤ a.createdAt)
    let lastPublishDate := (versions.head?).map (fun v => v.createdAt)
    let latestVersionSize := versions.foldl
      (fun s v => if (v.tags.getD []).contains "latest" then v.size.getD 0 else s) 0
    let allVersionsSize := (versions.map (fun v => v.size.getD 0)).sum
    let repoPart :=
      if repositoryName ≠ "N/A" then
        ([Request.repoReq repositoryName],
          match it.repoRes with | .ok archived => archived | .error _ => false)
      else ([], false)
    let statsPart :=
      match it.statsRes with
      | .ok (downloads, lastDownload) => (downloads, lastDownload)
      | .error _ => (0, none)
    (Request.versionsReq it.name :: repoPart.1 ++ [Request.statsReq it.name],
      some { name := it.name, type := it.packageType,
             repository := repositoryName, repositoryArchived := repoPart.2,
             latestVersionSize := latestVersionSize,
             allVersionsSize := allVersionsSize,
             totalDownloads := statsPart.1,
             lastPublishDate := lastPublishDate,
             lastDownloadDate := statsPart.2,
             versionCount := versions.length })

/-- The loop of `findPackagesCommand` over the packages of the organization
(pagination flattened to the item list): concatenates the request traces and
collects the pushed detail records in order. -/
def findPackagesRun : List PkgItem → List Request × List ItemDetail
  | [] => ([], [])
  | it :: rest =>
    let this := processPackage it
    let further := findPackagesRun rest
    (this.1 ++ further.1,
      (match this.2 with | some d => [d] | none => []) ++ further.2)

end FindPackages

namespace ListWebhooks

/-! Embedding of the repository loop of `src/commands/list-webhooks.ts`.
Each repository of the organization is either skipped (archived, when
`--only-active-repos` is set) or has its webhooks fetched once inside a
`try`/`catch` that logs a warning and continues with the next repository on
failure.  The pure within-repository filtering of the fetched webhooks
(active status, unique base URLs) issues no API request and is not needed
by any claim; the run collects the successfully fetched webhook lists. -/

/-- A repository of the organization list, as far as the loop reads it. -/
structure RepoInfo where
  name : String
  archived : Bool
  deriving DecidableEq

/-- The per-repository API request of the loop. -/
inductive Request where
  | webhooksReq (repoName : String)
  deriving DecidableEq

/-- The loop over the repositories of the organization: each item carries the
outcome of the `listWebhooks` pagination for that repository.  Returns the
request trace and the association of repository name to fetched webhooks
for the successful repositories. -/
def listWebhooksRun (onlyActiveRepos : Bool) :
    List (RepoInfo × Except String (List String)) →
      List Request × List (String × List String)
  | [] => ([], [])
  | (repo, res) :: rest =>
    let further := listWebhooksRun onlyActiveRepos rest
    if onlyActiveRepos && repo.archived then further
    else
      match res with
      | .ok hooks =>
        (Request.webhooksReq repo.name :: further.1,
          (repo.name, hooks) :: further.2)
      | .error _ =>
        (Request.webhooksReq repo.name :: further.1, further.2)

end ListWebhooks

/-- A minimal package node used by concrete witnesses. -/
def samplePkg (nm : String) : PackageDetails.PackageDetail :=
  ⟨nm, "MAVEN", none, none, none, 1⟩

/-- A minimal codespace used by concrete witnesses. -/
def sampleCodespace (nm : String) (repo : Option String) :
    Codespaces.Codespace :=
  ⟨nm, "Available", none, none, none, repo, none, "2024-01-01"⟩

/-! Helper lemmas shared between the claim theorems. -/

theorem lookup_append_left {β : Type} (l₁ l₂ : List (String × β)) (k : String)
    (v : β) (h : l₁.lookup k = some v) : (l₁ ++ l₂).lookup k = some v := by
  induction l₁ with
  | nil => simp [List.lookup] at h
  | cons p tl ih =>
    obtain ⟨a, b⟩ := p
    cases hk : (k == a) <;> simp [List.lookup, hk] at h ⊢
    · exact ih h
    · exact h

theorem lookup_append_right {β : Type} (l₁ l₂ : List (String × β)) (k : String)
    (h : l₁.lookup k = none) : (l₁ ++ l₂).lookup k = l₂.lookup k := by
  induction l₁ with
  | nil => simp
  | cons p tl ih =>
    obtain ⟨a, b⟩ := p
    rw [List.lookup_cons] at h
    rw [List.cons_append, List.lookup_cons]
    cases hk : (k == a) with
    | true => rw [hk] at h; simp at h
    | false =>
      rw [hk] at h
      exact ih h

theorem sortRepoSizes_pairwise (l : List ReleaseSizes.RepoSizeInfo) :
    (ReleaseSizes.sortRepoSizes l).Pairwise
      (fun a b => b.sizeInBytes ≤ a.sizeInBytes) := by
  have h := @List.sorted_mergeSort ReleaseSizes.RepoSizeInfo
    (fun a b => decide (b.sizeInBytes ≤ a.sizeInBytes))
    (by intro a b c hab hbc; simp at hab hbc ⊢; omega)
    (by intro a b; simpa using Nat.le_total b.sizeInBytes a.sizeInBytes) l
  exact h.imp (fun hab => by simpa using hab)

theorem sortRepoSizes_perm (l : List ReleaseSizes.RepoSizeInfo) :
    List.Perm (ReleaseSizes.sortRepoSizes l) l :=
  List.mergeSort_perm l _

theorem repositoryToCSVRow_length (repo : Codespaces.Repository)
    (h : repo.codespaces.totalCount = repo.codespaces.nodes.length) :
    (Codespaces.repositoryToCSVRow repo).length =
      max 1 repo.codespaces.totalCount := by
  unfold Codespaces.repositoryToCSVRow
  by_cases h0 : repo.codespaces.totalCount = 0
  · simp [h0]
  · have hb : (repo.codespaces.totalCount == 0) = false := by
      simpa using h0
    rw [if_neg (by simp [hb])]
    rw [List.length_map, Nat.max_eq_right (by omega)]
    omega

theorem orgLoop_complete (fsize : Nat → String)
    (items : List PackageDetails.OrgItem) :
    ∀ acc : PackageDetails.OrgAcc,
      (PackageDetails.orgLoop fsize items acc).2 = none →
      (PackageDetails.orgLoop fsize items acc).1.rows.length
          = acc.rows.length + (PackageDetails.processedItems items).length ∧
      (PackageDetails.orgLoop fsize items acc).1.packageCount
          = acc.packageCount + (PackageDetails.processedItems items).length ∧
      (PackageDetails.orgLoop fsize items acc).1.totalSizeBytes
          = acc.totalSizeBytes + (PackageDetails.processedSizes items).sum := by
  induction items with
  | nil =>
    intro acc _
    simp [PackageDetails.orgLoop, PackageDetails.processedItems,
      PackageDetails.processedSizes]
  | cons it rest ih =>
    obtain ⟨pkg, vd⟩ := it
    intro acc h
    by_cases hskip : PackageDetails.isDeletedPackage pkg
    · have hstep : PackageDetails.orgLoop fsize ((pkg, vd) :: rest) acc
          = PackageDetails.orgLoop fsize rest
              { acc with skippedCount := acc.skippedCount + 1 } := by
        simp [PackageDetails.orgLoop, hskip]
      rw [hstep] at h ⊢
      have hrec := ih _ h
      simpa [PackageDetails.processedItems, PackageDetails.processedSizes,
        hskip] using hrec
    · cases vd with
      | error e =>
        have : PackageDetails.orgLoop fsize ((pkg, Except.error e) :: rest) acc
            = (acc, some e) := by
          simp [PackageDetails.orgLoop, hskip]
        rw [this] at h
        simp at h
      | ok t =>
        have hstep : PackageDetails.orgLoop fsize ((pkg, Except.ok t) :: rest) acc
            = PackageDetails.orgLoop fsize rest
                { rows := acc.rows ++
                    [PackageDetails.packageToCSVRow fsize pkg t.totalFiles
                      t.totalSize t.totalVersions],
                  packageCount := acc.packageCount + 1,
                  skippedCount := acc.skippedCount,
                  totalSizeBytes := acc.totalSizeBytes + t.totalSize } := by
          simp [PackageDetails.orgLoop, hskip]
        rw [hstep] at h ⊢
        have hrec := ih _ h
        simp [PackageDetails.processedItems, PackageDetails.processedSizes,
          hskip] at hrec ⊢
        omega

theorem insertGroup_len_sum (k : String) (c : Codespaces.Codespace) :
    ∀ m : List (String × List Codespaces.Codespace),
      ((Codespaces.insertGroup k c m).map (fun g => g.2.length)).sum
        = ((m.map (fun g => g.2.length)).sum) + 1
  | [] => by simp [Codespaces.insertGroup]
  | (k₀, cs) :: rest => by
    by_cases hk : k₀ = k
    · simp [Codespaces.insertGroup, hk]
      omega
    · simp [Codespaces.insertGroup, hk, insertGroup_len_sum k c rest]
      omega

theorem insertGroup_nonempty (k : String) (c : Codespaces.Codespace) :
    ∀ m : List (String × List Codespaces.Codespace),
      (∀ g ∈ m, g.2 ≠ []) →
      ∀ g ∈ Codespaces.insertGroup k c m, g.2 ≠ []
  | [], _, g, hg => by
    simp [Codespaces.insertGroup] at hg
    simp [hg]
  | (k₀, cs) :: rest, hm, g, hg => by
    by_cases hk : k₀ = k
    · simp [Codespaces.insertGroup, hk] at hg
      rcases hg with hg | hg
      · simp [hg]
      · exact hm g (by simp [hg])
    · simp [Codespaces.insertGroup, hk] at hg
      rcases hg with hg | hg
      · exact hm g (by simp [hg])
      · exact insertGroup_nonempty k c rest
          (fun x hx => hm x (by simp [hx])) g hg

theorem groupFold_len_sum :
    ∀ (cs : List Codespaces.Codespace)
      (m : List (String × List Codespaces.Codespace)),
      (((cs.foldl (fun m c => Codespaces.insertGroup (Codespaces.repoKey c) c m)
          m)).map (fun g => g.2.length)).sum
        = (m.map (fun g => g.2.length)).sum + cs.length
  | [], m => by simp
  | c :: rest, m => by
    rw [List.foldl_cons, groupFold_len_sum rest _, insertGroup_len_sum]
    simp only [List.length_cons]
    omega

theorem groupFold_nonempty :
    ∀ (cs : List Codespaces.Codespace)
      (m : List (String × List Codespaces.Codespace)),
      (∀ g ∈ m, g.2 ≠ []) →
      ∀ g ∈ cs.foldl (fun m c => Codespaces.insertGroup (Codespaces.repoKey c) c m) m,
        g.2 ≠ []
  | [], _, hm, g, hg => hm g hg
  | c :: rest, m, hm, g, hg =>
    groupFold_nonempty rest _
      (insertGroup_nonempty (Codespaces.repoKey c) c m hm) g hg

theorem groupByRepo_len_sum (cs : List Codespaces.Codespace) :
    ((Codespaces.groupByRepo cs).map (fun g => g.2.length)).sum = cs.length := by
  unfold Codespaces.groupByRepo
  rw [groupFold_len_sum]
  simp

theorem groupByRepo_nonempty (cs : List Codespaces.Codespace) :
    ∀ g ∈ Codespaces.groupByRepo cs, g.2 ≠ [] := by
  unfold Codespaces.groupByRepo
  exact groupFold_nonempty cs [] (by simp)

theorem pageRepositories_sums (page : List Codespaces.Codespace) :
    ((Codespaces.pageRepositories page).map
        (fun r => (Codespaces.repositoryToCSVRow r).length)).sum = page.length ∧
    ((Codespaces.pageRepositories page).map
        (fun r => r.codespaces.totalCount)).sum = page.length := by
  constructor
  · unfold Codespaces.pageRepositories
    rw [List.map_map]
    have hcong : ∀ g ∈ Codespaces.groupByRepo page,
        ((fun r => (Codespaces.repositoryToCSVRow r).length) ∘
          (fun g => (⟨g.1, ⟨g.2.length, g.2⟩⟩ : Codespaces.Repository))) g
          = g.2.length := by
      intro g hg
      have hne := groupByRepo_nonempty page g hg
      have hlen := repositoryToCSVRow_length ⟨g.1, ⟨g.2.length, g.2⟩⟩ rfl
      simp only [Function.comp] at hlen ⊢
      rw [hlen, Nat.max_eq_right]
      exact List.length_pos.mpr hne
    rw [List.map_congr_left hcong]
    exact groupByRepo_len_sum page
  · unfold Codespaces.pageRepositories
    rw [List.map_map]
    have hcong : ∀ g ∈ Codespaces.groupByRepo page,
        ((fun r : Codespaces.Repository => r.codespaces.totalCount) ∘
          (fun g => (⟨g.1, ⟨g.2.length, g.2⟩⟩ : Codespaces.Repository))) g
          = g.2.length := fun g _ => rfl
    rw [List.map_congr_left hcong]
    exact groupByRepo_len_sum page

theorem codespacesFold_spec (repos : List Codespaces.Repository) :
    ∀ acc : Codespaces.CodespacesAcc,
      (repos.foldl Codespaces.codespacesStep acc).rows.length
          = acc.rows.length +
            (repos.map (fun r => (Codespaces.repositoryToCSVRow r).length)).sum ∧
      (repos.foldl Codespaces.codespacesStep acc).totalCodespaces
          = acc.totalCodespaces +
            (repos.map (fun r => r.codespaces.totalCount)).sum := by
  induction repos with
  | nil => intro acc; simp
  | cons r rest ih =>
    intro acc
    rw [List.foldl_cons]
    obtain ⟨h1, h2⟩ := ih (Codespaces.codespacesStep acc r)
    rw [List.map_cons, List.sum_cons, List.map_cons, List.sum_cons, h1, h2]
    simp [Codespaces.codespacesStep]
    omega

theorem codespacesFoldPages (pages : List (List Codespaces.Codespace)) :
    ∀ acc : Codespaces.CodespacesAcc,
      (((pages.map Codespaces.pageRepositories).flatten.foldl
          Codespaces.codespacesStep acc)).rows.length
          = acc.rows.length + (pages.map List.length).sum ∧
      (((pages.map Codespaces.pageRepositories).flatten.foldl
          Codespaces.codespacesStep acc)).totalCodespaces
          = acc.totalCodespaces + (pages.map List.length).sum := by
  induction pages with
  | nil => intro acc; simp
  | cons page rest ih =>
    intro acc
    rw [List.map_cons, List.flatten_cons, List.foldl_append]
    obtain ⟨ha, hb⟩ := codespacesFold_spec (Codespaces.pageRepositories page) acc
    obtain ⟨hc, hd⟩ := ih ((Codespaces.pageRepositories page).foldl
      Codespaces.codespacesStep acc)
    rw [hc, hd, ha, hb, (pageRepositories_sums page).1,
      (pageRepositories_sums page).2]
    simp only [List.map_cons, List.sum_cons]
    omega

theorem codespacesOrgRun_rows (pages : List (List Codespaces.Codespace)) :
    (Codespaces.codespacesOrgRun pages).rows.length
        = (pages.map List.length).sum ∧
    (Codespaces.codespacesOrgRun pages).totalCodespaces
        = (pages.map List.length).sum := by
  unfold Codespaces.codespacesOrgRun Codespaces.getCodespaceUsage
  have h := codespacesFoldPages pages ⟨[], 0, 0, 0⟩
  simpa using h

theorem foldl_add_sizeInBytes (l : List ReleaseSizes.RepoSizeInfo) :
    ∀ n : Nat, l.foldl (fun total repo => total + repo.sizeInBytes) n
      = n + (l.map (fun r => r.sizeInBytes)).sum := by
  induction l with
  | nil => intro n; simp
  | cons r rest ih =>
    intro n
    rw [List.foldl_cons, ih, List.map_cons, List.sum_cons]
    omega

theorem commandRun_complete (fsize : Nat → String)
    (orgs : List (List PackageDetails.OrgItem)) :
    ∀ totals : Nat × Nat × Nat,
      (PackageDetails.commandRun fsize orgs totals).2 = none →
      (PackageDetails.commandRun fsize orgs totals).1.2.2
        = totals.2.2 + (orgs.map
            (fun org => (PackageDetails.orgRun fsize org).1.totalSizeBytes)).sum := by
  induction orgs with
  | nil => intro t _; simp [PackageDetails.commandRun]
  | cons org rest ih =>
    intro t h
    cases horg : PackageDetails.orgRun fsize org with
    | mk acc err =>
      cases err with
      | some e =>
        rw [show PackageDetails.commandRun fsize (org :: rest) t = (t, some e) from by
          simp [PackageDetails.commandRun, horg]] at h
        simp at h
      | none =>
        have hstep : PackageDetails.commandRun fsize (org :: rest) t
            = PackageDetails.commandRun fsize rest
                (t.1 + acc.packageCount, t.2.1 + acc.skippedCount,
                  t.2.2 + acc.totalSizeBytes) := by
          simp [PackageDetails.commandRun, horg]
        rw [hstep] at h ⊢
        rw [ih _ h, List.map_cons, List.sum_cons, horg]
        simp
        omega

theorem findPackagesRun_details :
    ∀ items : List FindPackages.PkgItem,
      (FindPackages.findPackagesRun items).2
        = items.filterMap (fun it => (FindPackages.processPackage it).2)
  | [] => by simp [FindPackages.findPackagesRun]
  | it :: rest => by
    rw [List.filterMap_cons]
    cases hit : (FindPackages.processPackage it).2 with
    | none =>
      simp [FindPackages.findPackagesRun, hit, findPackagesRun_details rest]
    | some d =>
      simp [FindPackages.findPackagesRun, hit, findPackagesRun_details rest]

theorem processPackage_versions_error (it : FindPackages.PkgItem) (e : String)
    (h : it.versionsRes = Except.error e) :
    FindPackages.processPackage it
      = ([FindPackages.Request.versionsReq it.name], none) := by
  simp [FindPackages.processPackage, h]

theorem orgLoop_append (fsize : Nat → String) :
    ∀ (xs ys : List PackageDetails.OrgItem) (acc : PackageDetails.OrgAcc),
      PackageDetails.orgLoop fsize (xs ++ ys) acc =
        match PackageDetails.orgLoop fsize xs acc with
        | (acc₂, none) => PackageDetails.orgLoop fsize ys acc₂
        | (acc₂, some e) => (acc₂, some e)
  | [], ys, acc => by simp [PackageDetails.orgLoop]
  | (pkg, vd) :: rest, ys, acc => by
    by_cases hskip : PackageDetails.isDeletedPackage pkg
    · simp only [List.cons_append, PackageDetails.orgLoop, hskip, if_true]
      exact orgLoop_append fsize rest ys _
    · cases vd with
      | error e => simp [PackageDetails.orgLoop, hskip]
      | ok t =>
        simp only [List.cons_append, PackageDetails.orgLoop, hskip,
          Bool.false_eq_true, if_false]
        exact orgLoop_append fsize rest ys _

theorem processPackage_trace (it : FindPackages.PkgItem) :
    (FindPackages.processPackage it).1
      = match it.versionsRes with
        | .error _ => [FindPackages.Request.versionsReq it.name]
        | .ok _ =>
          if it.repository.getD "N/A" ≠ "N/A" then
            [FindPackages.Request.versionsReq it.name,
              FindPackages.Request.repoReq (it.repository.getD "N/A"),
              FindPackages.Request.statsReq it.name]
          else
            [FindPackages.Request.versionsReq it.name,
              FindPackages.Request.statsReq it.name] := by
  cases hv : it.versionsRes with
  | error e => simp [FindPackages.processPackage, hv]
  | ok vs =>
    by_cases hr : it.repository.getD "N/A" ≠ "N/A" <;>
      simp [FindPackages.processPackage, hv, hr]

theorem processPackage_count_le (it : FindPackages.PkgItem)
    (r : FindPackages.Request) :
    (FindPackages.processPackage it).1.count r ≤ 1 := by
  rw [processPackage_trace]
  cases it.versionsRes with
  | error e => exact List.nodup_iff_count_le_one.mp (by simp) r
  | ok vs =>
    split_ifs with hr <;> exact List.nodup_iff_count_le_one.mp (by simp) r

theorem processPackage_count_versionsReq (it : FindPackages.PkgItem)
    (n : String) :
    (FindPackages.processPackage it).1.count (FindPackages.Request.versionsReq n)
      = if it.name = n then 1 else 0 := by
  rw [processPackage_trace]
  cases it.versionsRes with
  | error e => by_cases hn : it.name = n <;> simp [List.count_cons, hn]
  | ok vs =>
    split_ifs <;> simp_all [List.count_cons]

theorem processPackage_count_statsReq (it : FindPackages.PkgItem)
    (n : String) :
    (FindPackages.processPackage it).1.count (FindPackages.Request.statsReq n)
      ≤ if it.name = n then 1 else 0 := by
  rw [processPackage_trace]
  cases it.versionsRes with
  | error e => by_cases hn : it.name = n <;> simp [List.count_cons, hn]
  | ok vs =>
    split_ifs <;> simp_all [List.count_cons]

theorem findPackagesRun_cons (it : FindPackages.PkgItem)
    (rest : List FindPackages.PkgItem) :
    (FindPackages.findPackagesRun (it :: rest)).1
      = (FindPackages.processPackage it).1 ++
        (FindPackages.findPackagesRun rest).1 := by
  simp [FindPackages.findPackagesRun]

theorem findPackagesRun_count_versionsReq :
    ∀ (items : List FindPackages.PkgItem) (n : String),
      (FindPackages.findPackagesRun items).1.count
          (FindPackages.Request.versionsReq n)
        = ((items.map (fun it => it.name)).count n)
  | [], n => by simp [FindPackages.findPackagesRun]
  | it :: rest, n => by
    rw [findPackagesRun_cons, List.count_append,
      processPackage_count_versionsReq,
      findPackagesRun_count_versionsReq rest n,
      List.map_cons, List.count_cons]
    by_cases hn : it.name = n <;> simp [hn] <;> omega

theorem findPackagesRun_count_statsReq :
    ∀ (items : List FindPackages.PkgItem) (n : String),
      (FindPackages.findPackagesRun items).1.count
          (FindPackages.Request.statsReq n)
        ≤ ((items.map (fun it => it.name)).count n)
  | [], n => by simp [FindPackages.findPackagesRun]
  | it :: rest, n => by
    rw [findPackagesRun_cons, List.count_append, List.map_cons,
      List.count_cons]
    have h1 := processPackage_count_statsReq it n
    have h2 := findPackagesRun_count_statsReq rest n
    by_cases hn : it.name = n <;> simp [hn] at h1 ⊢ <;> omega

theorem listWebhooksRun_requests (flag : Bool)
    (items : List (ListWebhooks.RepoInfo × Except String (List String))) :
    (ListWebhooks.listWebhooksRun flag items).1
      = ((items.filter (fun it => !(flag && it.1.archived))).map
          (fun it => ListWebhooks.Request.webhooksReq it.1.name)) := by
  induction items with
  | nil => simp [ListWebhooks.listWebhooksRun]
  | cons item rest ih =>
    obtain ⟨⟨rname, rarch⟩, res⟩ := item
    cases flag <;> cases rarch <;> cases res <;>
      simp [ListWebhooks.listWebhooksRun, List.filter_cons, ih]

theorem listWebhooksRun_append (flag : Bool)
    (xs ys : List (ListWebhooks.RepoInfo × Except String (List String))) :
    ListWebhooks.listWebhooksRun flag (xs ++ ys)
      = ((ListWebhooks.listWebhooksRun flag xs).1 ++
          (ListWebhooks.listWebhooksRun flag ys).1,
         (ListWebhooks.listWebhooksRun flag xs).2 ++
          (ListWebhooks.listWebhooksRun flag ys).2) := by
  induction xs with
  | nil => simp [ListWebhooks.listWebhooksRun]
  | cons item rest ih =>
    obtain ⟨⟨rname, rarch⟩, res⟩ := item
    cases flag <;> cases rarch <;> cases res <;>
      simp [ListWebhooks.listWebhooksRun, ih]

theorem webhooksReq_injective :
    Function.Injective ListWebhooks.Request.webhooksReq := by
  intro a b h
  injection h

theorem getOrgPackageDetails_cons (c : Option String)
    (p : PackageDetails.PackagesPage) (L : List PackageDetails.PackagesPage) :
    PackageDetails.getOrgPackageDetails c (p :: L) =
      if p.pageInfo.hasNextPage then
        match PackageDetails.getOrgPackageDetails p.pageInfo.endCursor L with
        | none => none
        | some (nodes, cursors) => some (p.nodes ++ nodes, c :: cursors)
      else some (p.nodes, [c]) := rfl

theorem getOrgPackageDetails_complete :
    ∀ (ps : List PackageDetails.PackagesPage) (c₀ : Option String)
      (extra : List PackageDetails.PackagesPage) (hne : ps ≠ [])
      (hmid : ∀ p ∈ ps.dropLast, p.pageInfo.hasNextPage = true)
      (hlast : (ps.getLast hne).pageInfo.hasNextPage = false),
      PackageDetails.getOrgPackageDetails c₀ (ps ++ extra) =
        some ((ps.map (fun p => p.nodes)).flatten,
          c₀ :: ps.dropLast.map (fun p => p.pageInfo.endCursor))
  | [], _, _, hne, _, _ => absurd rfl hne
  | [p], c₀, extra, _, _, hlast => by
    have hp : p.pageInfo.hasNextPage = false := hlast
    simp [PackageDetails.getOrgPackageDetails, hp]
  | p :: q :: rest, c₀, extra, _, hmid, hlast => by
    have hp : p.pageInfo.hasNextPage = true := by
      apply hmid
      simp
    have hrec := getOrgPackageDetails_complete (q :: rest) p.pageInfo.endCursor
      extra (by simp)
      (fun x hx => hmid x (by simp at hx ⊢; exact Or.inr hx))
      (by rw [← List.getLast_cons (l := q :: rest) (by simp)]; exact hlast)
    show PackageDetails.getOrgPackageDetails c₀ (p :: ((q :: rest) ++ extra)) = _
    rw [getOrgPackageDetails_cons, hrec]
    simp [hp]

/-! Claim theorems. -/

/-- Claim C3: the cursor-based pagination loop of `getOrgPackageDetails`
requests pages until the API signals no more pages.  For every served page
sequence whose last page is the first to report `hasNextPage = false`
(all earlier pages report true), and for any further pages the server would
be able to serve beyond it (`extra`), the loop consumes exactly the served
sequence — it stops right after the first `hasNextPage = false` response,
never touching `extra` — yields every node of every fetched page exactly
once in page order, and each request after the first passes exactly the
`endCursor` of the previous page: the cursor list is the initial cursor
followed by the `endCursor` of every page but the last. -/
theorem getOrgPackageDetails_pagination (c₀ : Option String)
    (ps extra : List PackageDetails.PackagesPage) (hne : ps ≠ [])
    (hmid : ∀ p ∈ ps.dropLast, p.pageInfo.hasNextPage = true)
    (hlast : (ps.getLast hne).pageInfo.hasNextPage = false) :
    PackageDetails.getOrgPackageDetails c₀ (ps ++ extra) =
      some ((ps.map (fun p => p.nodes)).flatten,
        c₀ :: ps.dropLast.map (fun p => p.pageInfo.endCursor)) :=
  getOrgPackageDetails_complete ps c₀ extra hne hmid hlast

/-- Witness for C3: a two-page trace (first page has a next page with
cursor `cursor1`, second page is final) followed by an extra unused page;
the run yields the two nodes in order, passes `none` then `cursor1`, and
ignores the extra page. -/
theorem getOrgPackageDetails_pagination_witness :
    (∀ p ∈ ([⟨[samplePkg "p1"], ⟨true, some "cursor1"⟩⟩,
        ⟨[samplePkg "p2"], ⟨false, none⟩⟩] :
        List PackageDetails.PackagesPage).dropLast,
      p.pageInfo.hasNextPage = true) ∧
    PackageDetails.getOrgPackageDetails none
        ([⟨[samplePkg "p1"], ⟨true, some "cursor1"⟩⟩,
          ⟨[samplePkg "p2"], ⟨false, none⟩⟩] ++
         [⟨[samplePkg "p3"], ⟨true, some "cursor3"⟩⟩]) =
      some ([samplePkg "p1", samplePkg "p2"], [none, some "cursor1"]) := by
  constructor
  · intro p hp
    simp at hp
    rw [hp]
  · have h := getOrgPackageDetails_pagination none
      [⟨[samplePkg "p1"], ⟨true, some "cursor1"⟩⟩,
        ⟨[samplePkg "p2"], ⟨false, none⟩⟩]
      [⟨[samplePkg "p3"], ⟨true, some "cursor3"⟩⟩]
      (by simp)
      (by intro p hp; simp at hp; rw [hp])
      (by rfl)
    simpa using h

/-- Claim C1: for every run of each report-generating command the CSV data
row count (excluding the header) equals the number of paginated items
successfully processed.  In `get-package-details`, for every completed
per-organization run the number of rows appended equals the number of
yielded packages that were processed (the deleted packages the loop
explicitly skips are not processed) and also equals the reported
`packageCount`.  In `codespaces-usage` the rows of a per-organization run
are one per fetched codespace: their number equals the total number of
codespaces in the fetched pages and equals the reported `totalCodespaces`
counter. -/
theorem csv_rows_equal_processed_items (fsize : Nat → String)
    (items : List PackageDetails.OrgItem)
    (pages : List (List Codespaces.Codespace))
    (hdone : (PackageDetails.orgRun fsize items).2 = none) :
    (PackageDetails.orgRun fsize items).1.rows.length
        = (PackageDetails.processedItems items).length ∧
    (PackageDetails.orgRun fsize items).1.rows.length
        = (PackageDetails.orgRun fsize items).1.packageCount ∧
    (Codespaces.codespacesOrgRun pages).rows.length
        = (pages.map List.length).sum ∧
    (Codespaces.codespacesOrgRun pages).rows.length
        = (Codespaces.codespacesOrgRun pages).totalCodespaces := by
  obtain ⟨h1, h2, _⟩ := orgLoop_complete fsize items ⟨[], 0, 0, 0⟩ hdone
  obtain ⟨h3, h4⟩ := codespacesOrgRun_rows pages
  refine ⟨?_, ?_, h3, ?_⟩
  · simpa [PackageDetails.orgRun] using h1
  · rw [show PackageDetails.orgRun fsize items
        = PackageDetails.orgLoop fsize items ⟨[], 0, 0, 0⟩ from rfl, h1, h2]
    simp
  · rw [h3, h4]

/-- Witness for C1: a completed `get-package-details` organization run over
one ordinary and one deleted package writes exactly one row, and a
`codespaces-usage` run over one page of two codespaces (one repository)
writes exactly two rows. -/
theorem csv_rows_equal_processed_items_witness :
    ((PackageDetails.orgRun toString
        [(samplePkg "a", Except.ok ⟨1, 10, 1⟩),
          (⟨"deleted_b", "MAVEN", none, none, none, 0⟩, Except.ok ⟨0, 0, 0⟩)]).2
      = none) ∧
    (PackageDetails.orgRun toString
        [(samplePkg "a", Except.ok ⟨1, 10, 1⟩),
          (⟨"deleted_b", "MAVEN", none, none, none, 0⟩, Except.ok ⟨0, 0, 0⟩)]).1.rows.length
      = (PackageDetails.processedItems
          [(samplePkg "a", Except.ok ⟨1, 10, 1⟩),
            (⟨"deleted_b", "MAVEN", none, none, none, 0⟩, Except.ok ⟨0, 0, 0⟩)]).length ∧
    (Codespaces.codespacesOrgRun
        [[sampleCodespace "cs1" (some "r1"), sampleCodespace "cs2" (some "r1")]]).rows.length
      = ([[sampleCodespace "cs1" (some "r1"),
            sampleCodespace "cs2" (some "r1")]].map List.length).sum := by
  have hdone : (PackageDetails.orgRun toString
      [(samplePkg "a", Except.ok ⟨1, 10, 1⟩),
        (⟨"deleted_b", "MAVEN", none, none, none, 0⟩, Except.ok ⟨0, 0, 0⟩)]).2
      = none := by decide
  have h := csv_rows_equal_processed_items toString
    [(samplePkg "a", Except.ok ⟨1, 10, 1⟩),
      (⟨"deleted_b", "MAVEN", none, none, none, 0⟩, Except.ok ⟨0, 0, 0⟩)]
    [[sampleCodespace "cs1" (some "r1"), sampleCodespace "cs2" (some "r1")]]
    hdone
  exact ⟨hdone, h.1, h.2.2.1⟩

/-- Claim C4: for every run that completes, the reported total size equals
the sum of the per-item sizes.  In `get-repo-release-sizes` the reported
total equals the sum of `sizeInBytes` over the per-repository records (the
total is computed after sorting, which permutes but does not change the
records).  In `get-package-details`, on a completed command run the
`grandTotalSizeBytes` equals the sum of the per-organization
`totalSizeBytes` values, and each completed per-organization
`totalSizeBytes` equals the sum of the `totalSize` values fetched for its
processed packages. -/
theorem totals_equal_sum_of_sizes
    (parseResult : Except String (List (List String))) (threshold : Nat)
    (releases : String → List (List ReleaseSizes.Release))
    (fsize : Nat → String) (orgs : List (List PackageDetails.OrgItem))
    (hdone : (PackageDetails.commandRun fsize orgs (0, 0, 0)).2 = none) :
    (ReleaseSizes.getRepoReleaseSizesRun parseResult threshold releases).2.2
        = ((ReleaseSizes.buildRepoSizes threshold releases
              (ReleaseSizes.readRepositoryNames parseResult).2).2.map
            (fun r => r.sizeInBytes)).sum ∧
    (PackageDetails.commandRun fsize orgs (0, 0, 0)).1.2.2
        = (orgs.map
            (fun org => (PackageDetails.orgRun fsize org).1.totalSizeBytes)).sum ∧
    (∀ org : List PackageDetails.OrgItem,
      (PackageDetails.orgRun fsize org).2 = none →
      (PackageDetails.orgRun fsize org).1.totalSizeBytes
        = (PackageDetails.processedSizes org).sum) := by
  refine ⟨?_, ?_, ?_⟩
  · show (ReleaseSizes.sortRepoSizes
        (ReleaseSizes.buildRepoSizes threshold releases
          (ReleaseSizes.readRepositoryNames parseResult).2).2).foldl
        (fun total repo => total + repo.sizeInBytes) 0 = _
    rw [foldl_add_sizeInBytes]
    have hperm := (sortRepoSizes_perm
      (ReleaseSizes.buildRepoSizes threshold releases
        (ReleaseSizes.readRepositoryNames parseResult).2).2).map
      (fun r => r.sizeInBytes)
    rw [hperm.sum_eq]
    simp
  · have h := commandRun_complete fsize orgs (0, 0, 0) hdone
    simpa using h
  · intro org horg
    have h := (orgLoop_complete fsize org ⟨[], 0, 0, 0⟩ horg).2.2
    simpa [PackageDetails.orgRun] using h

/-- Witness for C4 at concrete inputs: one repository with two assets of
2 and 3 bytes reports a total of 5, and a completed one-organization run
over a single package of fetched size 10 reports a grand total of 10. -/
theorem totals_equal_sum_of_sizes_witness :
    ((PackageDetails.commandRun toString
        [[(samplePkg "a", Except.ok ⟨1, 10, 1⟩)]] (0, 0, 0)).2 = none) ∧
    (ReleaseSizes.getRepoReleaseSizesRun (Except.ok [["r1"]]) 5
        (fun _ => [[⟨[2, 3]⟩]])).2.2
      = ((ReleaseSizes.buildRepoSizes 5 (fun _ => [[⟨[2, 3]⟩]])
            (ReleaseSizes.readRepositoryNames (Except.ok [["r1"]])).2).2.map
          (fun r => r.sizeInBytes)).sum ∧
    (PackageDetails.commandRun toString
        [[(samplePkg "a", Except.ok ⟨1, 10, 1⟩)]] (0, 0, 0)).1.2.2
      = ([[(samplePkg "a", Except.ok ⟨1, 10, 1⟩)]].map
          (fun org => (PackageDetails.orgRun toString org).1.totalSizeBytes)).sum := by
  have hdone : (PackageDetails.commandRun toString
      [[(samplePkg "a", Except.ok ⟨1, 10, 1⟩)]] (0, 0, 0)).2 = none := by decide
  have h := totals_equal_sum_of_sizes (Except.ok [["r1"]]) 5
    (fun _ => [[⟨[2, 3]⟩]]) toString
    [[(samplePkg "a", Except.ok ⟨1, 10, 1⟩)]] hdone
  exact ⟨hdone, h.1, h.2.1⟩

/-- Counterexample to C2 as stated: in `get-package-details` the per-item
work (the `getPackageVersionDetails` call) is not wrapped in a try/catch.
On a three-package organization whose second package fetch throws, the loop
does not continue to the third package: the run aborts with the error after
having written only the first row, whereas the claimed uniform policy would
complete the run with two rows. -/
theorem get_package_details_error_aborts :
    (PackageDetails.orgRun toString
        [(samplePkg "a", Except.ok ⟨1, 10, 1⟩),
          (samplePkg "b", Except.error "boom"),
          (samplePkg "c", Except.ok ⟨2, 20, 2⟩)]).2 = some "boom" ∧
    (PackageDetails.orgRun toString
        [(samplePkg "a", Except.ok ⟨1, 10, 1⟩),
          (samplePkg "b", Except.error "boom"),
          (samplePkg "c", Except.ok ⟨2, 20, 2⟩)]).1.rows.length = 1 := by
  constructor
  · rfl
  · rfl

/-- Claim C2 (amended): the catch-log-continue policy holds for the
commands that wrap their per-item work in a try/catch — in `find-packages`
every package whose processing throws is logged and skipped while all other
packages are processed and their accumulated results preserved, in order —
but it is not uniform: in `get-package-details` the per-item
`getPackageVersionDetails` call has no try/catch, so the first error aborts
the per-organization loop, preserving only the rows already written and
leaving the remaining yielded items unprocessed. -/
theorem per_item_error_policy (fsize : Nat → String) :
    (∀ items : List FindPackages.PkgItem,
      (FindPackages.findPackagesRun items).2
        = items.filterMap (fun it => (FindPackages.processPackage it).2)) ∧
    (∀ (it : FindPackages.PkgItem) (e : String),
      it.versionsRes = Except.error e →
      FindPackages.processPackage it
        = ([FindPackages.Request.versionsReq it.name], none)) ∧
    (∀ (xs ys : List PackageDetails.OrgItem)
      (p : PackageDetails.PackageDetail) (e : String),
      PackageDetails.isDeletedPackage p = false →
      (PackageDetails.orgRun fsize xs).2 = none →
      PackageDetails.orgRun fsize (xs ++ (p, Except.error e) :: ys)
        = ((PackageDetails.orgRun fsize xs).1, some e)) := by
  refine ⟨findPackagesRun_details, processPackage_versions_error, ?_⟩
  intro xs ys p e hp hxs
  show PackageDetails.orgLoop fsize (xs ++ (p, Except.error e) :: ys) ⟨[], 0, 0, 0⟩ = _
  rw [orgLoop_append]
  rcases hres : PackageDetails.orgLoop fsize xs ⟨[], 0, 0, 0⟩ with ⟨acc₂, err⟩
  have herr : err = none := by
    have : (PackageDetails.orgLoop fsize xs ⟨[], 0, 0, 0⟩).2 = none := hxs
    rw [hres] at this
    exact this
  subst herr
  show PackageDetails.orgLoop fsize ((p, Except.error e) :: ys) acc₂
      = ((PackageDetails.orgRun fsize xs).1, some e)
  have hfst : (PackageDetails.orgRun fsize xs).1 = acc₂ := by
    show (PackageDetails.orgLoop fsize xs ⟨[], 0, 0, 0⟩).1 = acc₂
    rw [hres]
  rw [hfst]
  simp [PackageDetails.orgLoop, hp]

/-- Witness for C2 (amended) at concrete inputs: a package whose versions
request throws yields no detail record and only the one request, and an
organization run consisting of a single package whose fetch throws aborts
with that error from the empty accumulator. -/
theorem per_item_error_policy_witness :
    ((⟨"x", "maven", none, Except.error "down", Except.ok false,
        Except.ok (0, none)⟩ : FindPackages.PkgItem).versionsRes
      = Except.error "down") ∧
    (FindPackages.processPackage
        ⟨"x", "maven", none, Except.error "down", Except.ok false,
          Except.ok (0, none)⟩
      = ([FindPackages.Request.versionsReq "x"], none)) ∧
    ((PackageDetails.orgRun toString ([] : List PackageDetails.OrgItem)).2
      = none) ∧
    (PackageDetails.orgRun toString
        ([] ++ (samplePkg "b", Except.error "boom") :: [])
      = ((PackageDetails.orgRun toString ([] : List PackageDetails.OrgItem)).1,
          some "boom")) := by
  refine ⟨rfl, ?_, rfl, ?_⟩
  · exact (per_item_error_policy toString).2.1
      ⟨"x", "maven", none, Except.error "down", Except.ok false,
        Except.ok (0, none)⟩ "down" rfl
  · exact (per_item_error_policy toString).2.2 [] [] (samplePkg "b") "boom"
      (by decide) rfl

/-- Counterexample to C5 as stated: when the repository-list file cannot be
read, `get-repo-release-sizes` logs the error but does not abort: the run
continues past the error, still emits the (empty) summary table, the
zero total and the final `finished` event.  The claimed abort would end the
trace at the logged error. -/
theorem repo_list_error_still_completes :
    ReleaseSizes.getRepoReleaseSizesRun (Except.error "ENOENT") 5000000000
        (fun _ => [])
      = ([ReleaseSizes.LogEvent.starting, ReleaseSizes.LogEvent.errorReadingList,
          ReleaseSizes.LogEvent.noReposToProcess,
          ReleaseSizes.LogEvent.summaryHeader, ReleaseSizes.LogEvent.tableColumns,
          ReleaseSizes.LogEvent.tableSep, ReleaseSizes.LogEvent.totalSizeAll 0,
          ReleaseSizes.LogEvent.finished], [], 0) := by
  simp [ReleaseSizes.getRepoReleaseSizesRun, ReleaseSizes.readRepositoryNames,
    ReleaseSizes.buildRepoSizes, ReleaseSizes.sortRepoSizes, List.mergeSort]

/-- Claim C5 (amended): for every run in which the initial repository list
cannot be obtained — the file read or parse throws, or the parsed file
contains no repository names — the command logs an error and performs no
per-item processing (no repository is processed and no per-repository API
page is consulted); the run is not aborted, however: it continues with the
empty item list and still emits the empty summary with a zero total before
finishing. -/
theorem repo_list_error_no_per_item_processing (e : String) (threshold : Nat)
    (releases : String → List (List ReleaseSizes.Release)) :
    ReleaseSizes.getRepoReleaseSizesRun (Except.error e) threshold releases
      = ([ReleaseSizes.LogEvent.starting, ReleaseSizes.LogEvent.errorReadingList,
          ReleaseSizes.LogEvent.noReposToProcess,
          ReleaseSizes.LogEvent.summaryHeader, ReleaseSizes.LogEvent.tableColumns,
          ReleaseSizes.LogEvent.tableSep, ReleaseSizes.LogEvent.totalSizeAll 0,
          ReleaseSizes.LogEvent.finished], [], 0) ∧
    ReleaseSizes.getRepoReleaseSizesRun (Except.ok []) threshold releases
      = ([ReleaseSizes.LogEvent.starting, ReleaseSizes.LogEvent.errorReadingList,
          ReleaseSizes.LogEvent.noReposToProcess,
          ReleaseSizes.LogEvent.summaryHeader, ReleaseSizes.LogEvent.tableColumns,
          ReleaseSizes.LogEvent.tableSep, ReleaseSizes.LogEvent.totalSizeAll 0,
          ReleaseSizes.LogEvent.finished], [], 0) ∧
    (ReleaseSizes.readRepositoryNames (Except.error e)).2 = [] ∧
    (ReleaseSizes.readRepositoryNames (Except.ok [])).2 = [] := by
  refine ⟨?_, ?_, rfl, rfl⟩ <;>
    simp [ReleaseSizes.getRepoReleaseSizesRun, ReleaseSizes.readRepositoryNames,
      ReleaseSizes.buildRepoSizes, ReleaseSizes.sortRepoSizes, List.mergeSort]

/-- Claim C6: no command retries a failed API operation.  In the
`list-webhooks` repository loop, when the repositories are distinct, each
webhook-list request appears at most once in the request trace of a run; in
`find-packages`, when the package names are distinct, the versions request
and the statistics request of each package appear at most once in the run
trace, and the requests issued while processing a single package are
pairwise distinct (each issued at most once for that item).  After a
failure the only recovery is to log and skip: a repository whose webhook
fetch throws contributes exactly its single request to the trace and
nothing to the results, and the remaining repositories are processed
unchanged. -/
theorem no_retry_requests_at_most_once (flag : Bool)
    (webhookItems : List (ListWebhooks.RepoInfo × Except String (List String)))
    (pkgItems : List FindPackages.PkgItem)
    (hw : (webhookItems.map (fun it => it.1.name)).Nodup)
    (hp : (pkgItems.map (fun it => it.name)).Nodup) :
    (∀ n, ((ListWebhooks.listWebhooksRun flag webhookItems).1.count
        (ListWebhooks.Request.webhooksReq n)) ≤ 1) ∧
    (∀ n, ((FindPackages.findPackagesRun pkgItems).1.count
        (FindPackages.Request.versionsReq n)) ≤ 1 ∧
      ((FindPackages.findPackagesRun pkgItems).1.count
        (FindPackages.Request.statsReq n)) ≤ 1) ∧
    (∀ (it : FindPackages.PkgItem) (r : FindPackages.Request),
      ((FindPackages.processPackage it).1.count r) ≤ 1) ∧
    (∀ (xs ys : List (ListWebhooks.RepoInfo × Except String (List String)))
      (repo : ListWebhooks.RepoInfo) (e : String),
      (flag && repo.archived) = false →
      ListWebhooks.listWebhooksRun flag (xs ++ (repo, Except.error e) :: ys)
        = ((ListWebhooks.listWebhooksRun flag xs).1 ++
            ListWebhooks.Request.webhooksReq repo.name ::
              (ListWebhooks.listWebhooksRun flag ys).1,
           (ListWebhooks.listWebhooksRun flag xs).2 ++
            (ListWebhooks.listWebhooksRun flag ys).2)) := by
  refine ⟨?_, ?_, processPackage_count_le, ?_⟩
  · intro n
    rw [listWebhooksRun_requests]
    have hmm : ((webhookItems.filter (fun it => !(flag && it.1.archived))).map
          (fun it => ListWebhooks.Request.webhooksReq it.1.name))
        = ((webhookItems.filter (fun it => !(flag && it.1.archived))).map
            (fun it => it.1.name)).map ListWebhooks.Request.webhooksReq := by
      rw [List.map_map]
      rfl
    rw [hmm, List.count_map_of_injective _ _ webhooksReq_injective]
    have hsub : ((webhookItems.filter (fun it => !(flag && it.1.archived))).map
          (fun it => it.1.name)).Sublist (webhookItems.map (fun it => it.1.name)) :=
      (List.filter_sublist _).map _
    exact Nat.le_trans (hsub.count_le n) (List.nodup_iff_count_le_one.mp hw n)
  · intro n
    constructor
    · rw [findPackagesRun_count_versionsReq]
      exact List.nodup_iff_count_le_one.mp hp n
    · exact Nat.le_trans (findPackagesRun_count_statsReq pkgItems n)
        (List.nodup_iff_count_le_one.mp hp n)
  · intro xs ys repo e hskip
    rw [listWebhooksRun_append]
    have hcons : ListWebhooks.listWebhooksRun flag ((repo, Except.error e) :: ys)
        = (ListWebhooks.Request.webhooksReq repo.name ::
            (ListWebhooks.listWebhooksRun flag ys).1,
           (ListWebhooks.listWebhooksRun flag ys).2) := by
      simp [ListWebhooks.listWebhooksRun, hskip]
    rw [hcons]

/-- Witness for C6: two distinct repositories (the second fetch throwing)
and one package whose versions request throws; all request-count bounds are
instantiated and the failure-recovery equation is applied at a concrete
failing repository. -/
theorem no_retry_requests_at_most_once_witness :
    (([(⟨"r1", false⟩, Except.ok ["h"]),
        (⟨"r2", false⟩, Except.error "x")] :
        List (ListWebhooks.RepoInfo × Except String (List String))).map
          (fun it => it.1.name)).Nodup ∧
    (((([⟨"p1", "maven", none, Except.error "down", Except.ok false,
        Except.ok (0, none)⟩] : List FindPackages.PkgItem)).map
          (fun it => it.name)).Nodup) ∧
    ((ListWebhooks.listWebhooksRun true
        [(⟨"r1", false⟩, Except.ok ["h"]),
          (⟨"r2", false⟩, Except.error "x")]).1.count
        (ListWebhooks.Request.webhooksReq "r1")) ≤ 1 ∧
    ((FindPackages.findPackagesRun
        [⟨"p1", "maven", none, Except.error "down", Except.ok false,
          Except.ok (0, none)⟩]).1.count
        (FindPackages.Request.versionsReq "p1")) ≤ 1 ∧
    ListWebhooks.listWebhooksRun true
        ([] ++ (⟨"r2", false⟩, Except.error "x") ::
          [(⟨"r1", false⟩, Except.ok ["h"])])
      = ((ListWebhooks.listWebhooksRun true []).1 ++
          ListWebhooks.Request.webhooksReq "r2" ::
            (ListWebhooks.listWebhooksRun true
              [(⟨"r1", false⟩, Except.ok ["h"])]).1,
         (ListWebhooks.listWebhooksRun true []).2 ++
          (ListWebhooks.listWebhooksRun true
            [(⟨"r1", false⟩, Except.ok ["h"])]).2) := by
  have hw : (([(⟨"r1", false⟩, Except.ok ["h"]),
      (⟨"r2", false⟩, Except.error "x")] :
      List (ListWebhooks.RepoInfo × Except String (List String))).map
        (fun it => it.1.name)).Nodup := by decide
  have hp : (((([⟨"p1", "maven", none, Except.error "down", Except.ok false,
      Except.ok (0, none)⟩] : List FindPackages.PkgItem)).map
        (fun it => it.name)).Nodup) := by decide
  have h := no_retry_requests_at_most_once true
    [(⟨"r1", false⟩, Except.ok ["h"]), (⟨"r2", false⟩, Except.error "x")]
    [⟨"p1", "maven", none, Except.error "down", Except.ok false,
      Except.ok (0, none)⟩] hw hp
  exact ⟨hw, hp, h.1 "r1", (h.2.1 "p1").1,
    h.2.2.2 [] [(⟨"r1", false⟩, Except.ok ["h"])] ⟨"r2", false⟩ "x" rfl⟩

/-- Claim C9: `getTeamMembers` is an idempotent cached lookup.  If the team
slug is already a key of the cache it returns the cached member list and
issues no API request; otherwise it fetches the members once and stores them
under the slug; a second call with the same slug on the resulting map
returns the same list as the first with no further API request, and no
existing cache entry is ever overwritten. -/
theorem getTeamMembers_cache_spec (fetch : String → List String)
    (teamSlug : String) (teamMap : List (String × List String)) :
    (∀ members, teamMap.lookup teamSlug = some members →
      Teams.getTeamMembers fetch teamSlug teamMap = (members, teamMap, 0)) ∧
    (teamMap.lookup teamSlug = none →
      Teams.getTeamMembers fetch teamSlug teamMap =
        (fetch teamSlug, teamMap ++ [(teamSlug, fetch teamSlug)], 1)) ∧
    (Teams.getTeamMembers fetch teamSlug
        (Teams.getTeamMembers fetch teamSlug teamMap).2.1 =
      ((Teams.getTeamMembers fetch teamSlug teamMap).1,
        (Teams.getTeamMembers fetch teamSlug teamMap).2.1, 0)) ∧
    (∀ k v, teamMap.lookup k = some v →
      (Teams.getTeamMembers fetch teamSlug teamMap).2.1.lookup k = some v) := by
  refine ⟨?_, ?_, ?_, ?_⟩
  · intro members h
    simp [Teams.getTeamMembers, h]
  · intro h
    simp [Teams.getTeamMembers, h]
  · cases h : teamMap.lookup teamSlug with
    | some members =>
      simp [Teams.getTeamMembers, h]
    | none =>
      have hmem : (teamMap ++ [(teamSlug, fetch teamSlug)]).lookup teamSlug =
          some (fetch teamSlug) := by
        rw [lookup_append_right _ _ _ h]
        simp [List.lookup]
      simp [Teams.getTeamMembers, h, hmem]
  · intro k v hv
    cases h : teamMap.lookup teamSlug with
    | some members => simpa [Teams.getTeamMembers, h] using hv
    | none =>
      simp only [Teams.getTeamMembers, h]
      exact lookup_append_left _ _ _ _ hv

/-- Witness for C9 at concrete inputs: a hit on a cached slug, a miss that
stores the fetched members, the idempotent second call, and preservation of
an existing entry. -/
theorem getTeamMembers_cache_spec_witness :
    (Teams.getTeamMembers (fun _ => ["m"]) "a" [("a", ["x"])] =
      (["x"], [("a", ["x"])], 0)) ∧
    (Teams.getTeamMembers (fun _ => ["m"]) "b" [("a", ["x"])] =
      (["m"], [("a", ["x"]), ("b", ["m"])], 1)) ∧
    (Teams.getTeamMembers (fun _ => ["m"]) "b"
        (Teams.getTeamMembers (fun _ => ["m"]) "b" [("a", ["x"])]).2.1 =
      ((Teams.getTeamMembers (fun _ => ["m"]) "b" [("a", ["x"])]).1,
        (Teams.getTeamMembers (fun _ => ["m"]) "b" [("a", ["x"])]).2.1, 0)) ∧
    ((Teams.getTeamMembers (fun _ => ["m"]) "b" [("a", ["x"])]).2.1.lookup "a" =
      some ["x"]) := by
  refine ⟨?_, ?_, ?_, ?_⟩
  · exact (getTeamMembers_cache_spec (fun _ => ["m"]) "a" [("a", ["x"])]).1
      ["x"] (by decide)
  · exact (getTeamMembers_cache_spec (fun _ => ["m"]) "b" [("a", ["x"])]).2.1
      (by decide)
  · exact (getTeamMembers_cache_spec (fun _ => ["m"]) "b" [("a", ["x"])]).2.2.1
  · exact (getTeamMembers_cache_spec (fun _ => ["m"]) "b" [("a", ["x"])]).2.2.2
      "a" ["x"] (by decide)

/-- Claim C10: the summary table of `get-repo-release-sizes` lists the
repositories in non-increasing order of `sizeInBytes`, for every input list:
the sorted record list is pairwise non-increasing, is a permutation of the
collected records, and is exactly the record list the run reports. -/
theorem repoSizes_sorted_descending (repoSizes : List ReleaseSizes.RepoSizeInfo)
    (parseResult : Except String (List (List String))) (threshold : Nat)
    (releases : String → List (List ReleaseSizes.Release)) :
    (ReleaseSizes.sortRepoSizes repoSizes).Pairwise
      (fun a b => b.sizeInBytes ≤ a.sizeInBytes) ∧
    List.Perm (ReleaseSizes.sortRepoSizes repoSizes) repoSizes ∧
    (ReleaseSizes.getRepoReleaseSizesRun parseResult threshold releases).2.1 =
      ReleaseSizes.sortRepoSizes
        (ReleaseSizes.buildRepoSizes threshold releases
          (ReleaseSizes.readRepositoryNames parseResult).2).2 :=
  ⟨sortRepoSizes_pairwise repoSizes, sortRepoSizes_perm repoSizes, rfl⟩

/-- Counterexample to C8 as stated: a `Repository` record whose
`totalCount` is 1 but whose `codespaces` node list is empty makes
`repositoryToCSVRow` return zero rows, not `max 1 totalCount = 1` rows. -/
theorem repositoryToCSVRow_zero_rows_counterexample :
    (Codespaces.repositoryToCSVRow ⟨"repo", ⟨1, []⟩⟩).length = 0 ∧
    (Codespaces.repositoryToCSVRow ⟨"repo", ⟨1, []⟩⟩).length ≠ max 1 1 := by
  constructor
  · rfl
  · decide

/-- Claim C8 (amended): for every repository record whose `totalCount`
agrees with the length of its codespaces list — which holds for every
record the command constructs, since `pageRepositories` sets
`totalCount := nodes.length` — `repositoryToCSVRow` returns exactly
`max 1 totalCount` rows and never zero rows: one placeholder row when the
repository has zero codespaces and otherwise one row per codespace. -/
theorem repositoryToCSVRow_row_count (repo : Codespaces.Repository)
    (h : repo.codespaces.totalCount = repo.codespaces.nodes.length) :
    (Codespaces.repositoryToCSVRow repo).length =
      max 1 repo.codespaces.totalCount ∧
    0 < (Codespaces.repositoryToCSVRow repo).length ∧
    (repo.codespaces.totalCount = 0 →
      Codespaces.repositoryToCSVRow repo =
        [String.intercalate "," [repo.name, "N/A", "N/A", "N/A", "N/A", "N/A",
          "N/A", "N/A", "N/A", "N/A", "N/A"]]) := by
  refine ⟨repositoryToCSVRow_length repo h, ?_, ?_⟩
  · rw [repositoryToCSVRow_length repo h]
    exact Nat.lt_of_lt_of_le Nat.zero_lt_one (Nat.le_max_left 1 _)
  · intro h0
    simp [Codespaces.repositoryToCSVRow, h0]

/-- Witness for C8 (amended) at concrete inputs: a repository with no
codespaces yields one placeholder row; one with two codespaces yields two
rows. -/
theorem repositoryToCSVRow_row_count_witness :
    (Codespaces.repositoryToCSVRow ⟨"empty", ⟨0, []⟩⟩).length = max 1 0 ∧
    0 < (Codespaces.repositoryToCSVRow ⟨"empty", ⟨0, []⟩⟩).length := by
  have h := repositoryToCSVRow_row_count ⟨"empty", ⟨0, []⟩⟩ rfl
  exact ⟨h.1, h.2.1⟩
